import Mathlib

/-!
# Verification of the my-audio-summaries document pipeline

Shallow embedding of the core data model and operations of the
my-audio-summaries repository: the `Document` model with its
`process_with` operation (from `project-context.md`), the PDF
page-join logic and Gmail helpers (from `notebooks/sandbox.ipynb`),
and spec-modelled versions of the components whose source files
(`src/processors/pdf.py`, `src/audio/generator.py`, chunker,
synthesizer retry, fetcher) are not present in the repository
snapshot.
-/

set_option maxHeartbeats 1000000

namespace AudioSummaries

/-! ## Document data model

Embeds the pydantic `Document` class from `project-context.md`.
`content` and `timestamp` are modelled as `String` and `Nat`;
`metadata` as an association list of string pairs. -/

structure Document where
  source : String
  title : String
  content : String
  mime_type : String
  url : Option String
  timestamp : Nat
  metadata : List (String × String)
  extracted_text : Option String
deriving Repr, DecidableEq

/-- A `DocumentProcessor`: `supports_mime_type` guard and `process`
conversion, as used by `Document.process_with`. -/
structure Processor where
  supports_mime_type : String → Bool
  process : String → String

/-- Python `ValueError` raised by `process_with` on a MIME mismatch. -/
inductive PipelineError where
  | valueError (msg : String)
deriving Repr, DecidableEq

/-- Embeds `Document.process_with` from `project-context.md`:
raises `ValueError` when the processor does not support the document's
`mime_type`; otherwise stores `processor.process(self.content)` into
`extracted_text` and returns it.  The returned `Document` is the
post-call state of `self` (unchanged when the error is raised). -/
def Document.process_with (d : Document) (p : Processor) :
    Except PipelineError String × Document :=
  if p.supports_mime_type d.mime_type then
    let text := p.process d.content
    (Except.ok text, { d with extracted_text := some text })
  else
    (Except.error (PipelineError.valueError
      ("Processor does not support mime_type: " ++ d.mime_type)), d)

end AudioSummaries

namespace AudioSummaries

/-! ## PDF page extraction

From `notebooks/sandbox.ipynb`:
`text = "\n\n".join([page.extract_text() for page in reader.pages])`.
A page is represented by the text `page.extract_text()` returns. -/

/-- Embeds the notebook's PDF extraction: the per-page texts joined by
a blank-line (`"\n\n"`) separator, in page order. -/
def extractPdfText (pages : List String) : String :=
  String.intercalate "\n\n" pages

/-- Modelled from the spec: the PDF processor of `src/processors/pdf.py`
is not in the repository snapshot; per §4.1 pages that fail to extract
individually are skipped with a recorded warning rather than aborting
the whole document.  A page is `some text` on successful extraction and
`none` on failure; the auxiliary walk keeps the running page index and
returns the successfully extracted texts in page order together with the
indices of the pages whose extraction failed (the recorded warnings). -/
def collectPages : Nat → List (Option String) → List String × List Nat
  | _, [] => ([], [])
  | i, p :: ps =>
    let rest := collectPages (i + 1) ps
    match p with
    | some t => (t :: rest.1, rest.2)
    | none => (rest.1, i :: rest.2)

/-- Modelled from the spec: full PDF processing with partial-failure
tolerance — join the successfully extracted pages with the blank-line
separator and record a warning index for each failed page. -/
def processPdfPages (pages : List (Option String)) : String × List Nat :=
  let res := collectPages 0 pages
  (String.intercalate "\n\n" res.1, res.2)

/-! ## Gmail message listing

From `notebooks/sandbox.ipynb`:
`messages = results.get('messages', [])` — the `'messages'` key of the
Gmail API response, defaulting to the empty list when absent. -/

/-- Embeds `results.get('messages', [])`: the response's `'messages'`
entry is `none` when the key is absent. -/
def getMessages (results : Option (List String)) : List String :=
  results.getD []

/-- Modelled from the spec: the Gmail fetcher of `src/fetchers/gmail.py`
is not in the repository snapshot; per §4.2 `fetch` wraps each listed
message into a `Document` (via a per-message builder) preserving the
source-natural order, and never fails. -/
def fetchDocuments (build : String → Document)
    (results : Option (List String)) : List Document :=
  (getMessages results).map build

/-! ## Gmail payload traversal

From `notebooks/sandbox.ipynb`, `get_parts(payload)`: recursively
collect all parts from an email payload — first recurse into
`payload['parts']` (when present), then append the payload itself when
`payload.get('filename')` is truthy. -/

/-- A Gmail message payload: its `filename` field (the empty string
models both an absent and an empty — hence falsy — filename, which the
Python code treats identically) and its nested `parts` (the empty list
models an absent `'parts'` key, over which the Python loop body never
runs, identically to a present empty list). -/
inductive Payload where
  | mk (filename : String) (parts : List Payload)

/-- The `'filename'` field of a payload. -/
def Payload.filename : Payload → String
  | .mk f _ => f

/-- The nested `'parts'` of a payload. -/
def Payload.parts : Payload → List Payload
  | .mk _ ps => ps

mutual

/-- Embeds `get_parts` from the notebook: the nested parts' results
first (in order), then this payload itself when its filename is
truthy. -/
def getParts : Payload → List Payload
  | .mk fn ps => getPartsList ps ++ (if fn = "" then [] else [Payload.mk fn ps])

/-- The loop `for part in payload['parts']: parts.extend(get_parts(part))`. -/
def getPartsList : List Payload → List Payload
  | [] => []
  | p :: ps => getParts p ++ getPartsList ps

end

mutual

/-- Reference traversal for claim C10, following the claim's words: all
payloads of the tree, depth-first, each container's nested parts listed
before the container itself. -/
def allNodes : Payload → List Payload
  | .mk fn ps => allNodesList ps ++ [Payload.mk fn ps]

/-- `allNodes` over a list of sibling payloads, in order. -/
def allNodesList : List Payload → List Payload
  | [] => []
  | p :: ps => allNodes p ++ allNodesList ps

end

/-! ## Text chunker

The chunker source file is not in the repository snapshot; it is
modelled from spec §4.4.  Texts are character lists; the
sentence-boundary preference of the spec only refines where the word
boundaries fall and is modelled at word granularity, which leaves the
spec's stated invariants (determinism, exact reconstruction, length
bound) unchanged. -/

/-- Modelled from the spec: split a text into words, each word keeping
the delimiting space that follows it, so that concatenating the words
restores the text exactly (no whitespace normalization is performed).
`acc` holds the characters of the current word in reverse. -/
def splitWordsAux : List Char → List Char → List (List Char)
  | acc, [] => if acc.isEmpty then [] else [acc.reverse]
  | acc, c :: cs =>
    if c = ' ' then (acc.reverse ++ [' ']) :: splitWordsAux [] cs
    else splitWordsAux (c :: acc) cs

/-- Modelled from the spec: the word split of a text. -/
def splitWords (text : List Char) : List (List Char) :=
  splitWordsAux [] text

/-- Modelled from the spec: hard character cut of a single word longer
than the limit, into slices of `max M 1` characters (equal to `M` in
every intended call, where `M > 0`; the `max` keeps the recursion
well-founded). -/
def hardCut (M : Nat) : List Char → List (List Char)
  | [] => []
  | c :: cs => (c :: cs).take (max M 1) :: hardCut M ((c :: cs).drop (max M 1))
termination_by l => l.length
decreasing_by
  simp only [List.length_drop, List.length_cons]
  have := Nat.le_max_right M 1
  omega

/-- Modelled from the spec: greedy accumulation of words into chunks —
append the next word while the chunk stays within `M` characters;
otherwise emit the accumulated chunk and start a new one, hard-cutting
any single word that alone exceeds `M`.  `acc` is the chunk being
accumulated. -/
def chunkWords (M : Nat) : List (List Char) → List Char → List (List Char)
  | [], acc => if acc.isEmpty then [] else [acc]
  | w :: ws, acc =>
    if acc.length + w.length ≤ M then chunkWords M ws (acc ++ w)
    else if acc.isEmpty then hardCut M w ++ chunkWords M ws []
    else if w.length ≤ M then acc :: chunkWords M ws w
    else acc :: (hardCut M w ++ chunkWords M ws [])

/-- Modelled from the spec: the full chunking operation on a text. -/
def chunkText (M : Nat) (text : List Char) : List (List Char) :=
  chunkWords M (splitWords text) []

/-! ## Dialogue script voice assignment

`src/audio/generator.py` is not in the repository snapshot; voice
assignment is modelled from spec §4.3 and §8 with the voice rotation
list of `config/default.yaml` (`audio.voices`) as intended argument. -/

/-- A parsed script turn: optional explicit speaker label and the
turn's utterance text. -/
structure Turn where
  label : Option String
  text : String
deriving Repr, DecidableEq

/-- Modelled from the spec: turn `i` keeps a valid explicit label drawn
from the configured voice set; a turn with a missing or unrecognized
label gets the rotation voice `i mod K` rather than being dropped. -/
def assignVoice (voices : List String) (i : Nat) (t : Turn) : String :=
  match t.label with
  | some l => if voices.contains l then l else voices.getD (i % voices.length) ""
  | none => voices.getD (i % voices.length) ""

/-- Modelled from the spec: assign a voice to every turn of the parsed
script, in order, keeping every turn's content. -/
def assignVoices (voices : List String) (turns : List Turn) : List (String × Turn) :=
  turns.enum.map (fun p => (assignVoice voices p.1 p.2, p.2))

/-! ## Synthesizer retry

The synthesizer source is not in the repository snapshot; the bounded
retry discipline is modelled from spec §4.5. -/

/-- Modelled from the spec: outcome of one call to the external TTS
capability — success with audio bytes, a Transient failure (rate limit,
timeout, 5xx-equivalent) or a Permanent failure (invalid voice, content
rejected). -/
inductive SynthOutcome where
  | success (audio : String)
  | transientFailure
  | permanentFailure
deriving Repr, DecidableEq

/-- Modelled from the spec: result of the Synthesizer's bounded retry
loop, recording the number of attempts made. -/
inductive SynthResult where
  | ok (audio : String) (attempts : Nat)
  | failedPermanent (attempts : Nat)
  | exhausted (attempts : Nat)
deriving Repr, DecidableEq

/-- Modelled from the spec: the bounded retry loop.  `call n` is the
outcome of the `n`-th attempt (0-based); `remaining` further attempts
are allowed and `made` attempts have been made.  Transient failures are
retried up to the attempt ceiling; Permanent failures abort
immediately. -/
def retryLoop (call : Nat → SynthOutcome) : Nat → Nat → SynthResult
  | 0, made => .exhausted made
  | remaining + 1, made =>
    match call made with
    | .success a => .ok a (made + 1)
    | .permanentFailure => .failedPermanent (made + 1)
    | .transientFailure => retryLoop call remaining (made + 1)

/-- Modelled from the spec: synthesize one chunk with at most
`maxAttempts` attempts. -/
def synthesizeWithRetry (call : Nat → SynthOutcome) (maxAttempts : Nat) : SynthResult :=
  retryLoop call maxAttempts 0

/-- Modelled from the spec: each chunk of a document is synthesized
independently — chunk `i` uses only its own call function `call i`. -/
def synthesizeChunks (call : Nat → Nat → SynthOutcome) (n maxAttempts : Nat) :
    List SynthResult :=
  (List.range n).map (fun i => synthesizeWithRetry (call i) maxAttempts)

mutual

/-- `getParts` keeps exactly the truthy-filename nodes of the
depth-first, children-first traversal. -/
theorem getParts_filter : ∀ p : Payload,
    getParts p = (allNodes p).filter (fun q => q.filename != "")
  | .mk fn ps => by
    rw [getParts, allNodes, List.filter_append, getPartsList_filter ps]
    by_cases h : fn = "" <;> simp [h, Payload.filename]

/-- List version of `getParts_filter`. -/
theorem getPartsList_filter : ∀ ps : List Payload,
    getPartsList ps = (allNodesList ps).filter (fun q => q.filename != "")
  | [] => by simp [getPartsList, allNodesList]
  | p :: ps => by
    rw [getPartsList, allNodesList, List.filter_append, getParts_filter p,
      getPartsList_filter ps]

end

/-- Claim C1: if `P.supports_mime_type(D.mime_type)` is false, then
`D.process_with(P)` fails with the `ValueError` (validation-error kind)
naming the unsupported mime type, and the document — in particular its
`extracted_text` field — is left unchanged. -/
theorem process_with_unsupported (d : Document) (p : Processor)
    (h : p.supports_mime_type d.mime_type = false) :
    (d.process_with p).1 = Except.error (PipelineError.valueError
      ("Processor does not support mime_type: " ++ d.mime_type)) ∧
    (d.process_with p).2 = d ∧
    (d.process_with p).2.extracted_text = d.extracted_text := by
  simp [Document.process_with, h]

/-- Witness for C1: a concrete text document and a processor that only
supports PDFs. -/
theorem process_with_unsupported_witness :
    (Processor.mk (fun m => m = "application/pdf") (fun c => c)).supports_mime_type
        "text/plain" = false ∧
    ((Document.mk "gmail" "t" "hello" "text/plain" none 0 [] none).process_with
        (Processor.mk (fun m => m = "application/pdf") (fun c => c))).2.extracted_text
      = none :=
  ⟨by decide, (process_with_unsupported
      (Document.mk "gmail" "t" "hello" "text/plain" none 0 [] none)
      (Processor.mk (fun m => m = "application/pdf") (fun c => c))
      (by decide)).2.2⟩

/-- Claim C8: if `P.supports_mime_type(D.mime_type)` is true, then
`D.process_with(P)` returns exactly `P.process(D.content)`, stores that
same string in `extracted_text`, and leaves every other Document field
unchanged. -/
theorem process_with_supported (d : Document) (p : Processor)
    (h : p.supports_mime_type d.mime_type = true) :
    (d.process_with p).1 = Except.ok (p.process d.content) ∧
    (d.process_with p).2.extracted_text = some (p.process d.content) ∧
    (d.process_with p).2.source = d.source ∧
    (d.process_with p).2.title = d.title ∧
    (d.process_with p).2.content = d.content ∧
    (d.process_with p).2.mime_type = d.mime_type ∧
    (d.process_with p).2.url = d.url ∧
    (d.process_with p).2.timestamp = d.timestamp ∧
    (d.process_with p).2.metadata = d.metadata := by
  simp [Document.process_with, h]

/-- Witness for C8: a plain-text document processed by a processor that
supports every mime type and upper-cases nothing (identity). -/
theorem process_with_supported_witness :
    (Processor.mk (fun _ => true) (fun c => c ++ "!")).supports_mime_type
        "text/plain" = true ∧
    ((Document.mk "gmail" "t" "hi" "text/plain" none 0 [] none).process_with
        (Processor.mk (fun _ => true) (fun c => c ++ "!"))).2.extracted_text
      = some "hi!" := by
  refine ⟨by decide, ?_⟩
  have h := (process_with_supported
      (Document.mk "gmail" "t" "hi" "text/plain" none 0 [] none)
      (Processor.mk (fun _ => true) (fun c => c ++ "!")) (by decide)).2.1
  simpa using h

/-- Counterexample to claim C2 as stated: `extracted_text` is not
write-once.  A document whose `extracted_text` is already `some "old"`,
processed with a processor that supports its mime type and extracts
`"new"`, ends with `extracted_text = some "new"` — the subsequent
`process_with` call did not leave `extracted_text` unchanged. -/
theorem extracted_text_overwritten :
    ¬ (∀ (d : Document) (p : Processor), d.extracted_text.isSome →
        (d.process_with p).2.extracted_text = d.extracted_text) := by
  intro h
  have := h (Document.mk "gmail" "t" "c" "text/plain" none 0 [] (some "old"))
    (Processor.mk (fun _ => true) (fun _ => "new")) (by decide)
  simp [Document.process_with] at this

/-- Claim C2 (amended): for a document whose `extracted_text` is already
set, a subsequent `process_with` call leaves `extracted_text` unchanged
when the processor does not support the document's mime type, but a
supporting processor overwrites it with that processor's own output. -/
theorem extracted_text_amended (d : Document) (p : Processor) (t : String)
    (h : d.extracted_text = some t) :
    (p.supports_mime_type d.mime_type = false →
      (d.process_with p).2.extracted_text = some t) ∧
    (p.supports_mime_type d.mime_type = true →
      (d.process_with p).2.extracted_text = some (p.process d.content)) := by
  constructor
  · intro hs; simp [Document.process_with, hs, h]
  · intro hs; simp [Document.process_with, hs]

/-- The successful texts collected by `collectPages` are exactly the
`some` entries, in order. -/
theorem collectPages_fst (i : Nat) (pages : List (Option String)) :
    (collectPages i pages).1 = pages.filterMap id := by
  induction pages generalizing i with
  | nil => simp [collectPages]
  | cons p ps ih =>
    cases p with
    | some t => simp [collectPages, ih]
    | none => simp [collectPages, ih]

/-- The warning indices collected by `collectPages`, when started at
index `i`, are `i +` the positions of the `none` entries. -/
theorem collectPages_snd (i : Nat) (pages : List (Option String)) :
    (collectPages i pages).2 =
      ((List.range pages.length).filter
        (fun j => (pages.getD j (some "")).isNone)).map (fun j => i + j) := by
  induction pages generalizing i with
  | nil => simp [collectPages]
  | cons p ps ih =>
    have hrange : List.range (ps.length + 1) = 0 :: (List.range ps.length).map (· + 1) :=
      List.range_succ_eq_map ps.length
    cases p with
    | some t =>
      simp only [collectPages, List.length_cons, hrange, List.filter_cons,
        List.getD_cons_zero, Option.isNone_some, Bool.false_eq_true, if_false,
        List.filter_map, List.map_map, ih]
      have hfun : ((fun j => i + j) ∘ fun x => x + 1) = (fun j => i + 1 + j) := by
        funext j; simp [Function.comp]; omega
      have hfil : ∀ j ∈ List.range ps.length,
          ((fun j => ((some t :: ps).getD j (some "")).isNone) ∘ fun x => x + 1) j
            = (fun j => (ps.getD j (some "")).isNone) j := by
        intro j _; simp [Function.comp, List.getD_cons_succ]
      rw [hfun, List.filter_congr hfil]
    | none =>
      simp only [collectPages, List.length_cons, hrange, List.filter_cons,
        List.getD_cons_zero, Option.isNone_none, if_true, List.filter_map,
        List.map_cons, List.map_map, ih]
      have hfun : ((fun j => i + j) ∘ fun x => x + 1) = (fun j => i + 1 + j) := by
        funext j; simp [Function.comp]; omega
      have hfil : ∀ j ∈ List.range ps.length,
          ((fun j => ((none :: ps).getD j (some "")).isNone) ∘ fun x => x + 1) j
            = (fun j => (ps.getD j (some "")).isNone) j := by
        intro j _; simp [Function.comp, List.getD_cons_succ]
      rw [hfun, List.filter_congr hfil]
      simp

/-- `String.intercalate.go` factors a leading prefix out of its
accumulator. -/
theorem intercalate_go_factor (s a : String) :
    ∀ (as : List String) (b : String),
      String.intercalate.go (a ++ b) s as = a ++ String.intercalate.go b s as
  | [], _ => rfl
  | c :: cs, b => by
    rw [String.intercalate.go, String.intercalate.go]
    have h : a ++ b ++ s ++ c = a ++ (b ++ s ++ c) := by
      rw [String.append_assoc, String.append_assoc, String.append_assoc]
    rw [h]
    exact intercalate_go_factor s a cs (b ++ s ++ c)

/-- `String.intercalate` over two or more pieces: the head, the
separator, then the intercalation of the tail. -/
theorem intercalate_cons_cons (s p q : String) (qs : List String) :
    String.intercalate s (p :: q :: qs) = p ++ s ++ String.intercalate s (q :: qs) := by
  show String.intercalate.go p s (q :: qs) = p ++ s ++ String.intercalate.go q s qs
  rw [String.intercalate.go]
  have h : p ++ s ++ q = (p ++ s) ++ q := rfl
  rw [h, intercalate_go_factor s (p ++ s) qs q]

/-- Claim C4: PDF processing joins the per-page texts in page order
with a blank-line (`"\n\n"`) separator: no pages give the empty text, a
single page gives its own text, each further page is appended after a
blank line, and in particular a 2-page PDF yields the two pages' texts
joined by a blank line. -/
theorem pdf_blank_line_join :
    extractPdfText [] = "" ∧
    (∀ p, extractPdfText [p] = p) ∧
    (∀ p ps, ps ≠ [] → extractPdfText (p :: ps) = p ++ "\n\n" ++ extractPdfText ps) ∧
    (∀ p1 p2, extractPdfText [p1, p2] = p1 ++ "\n\n" ++ p2) := by
  refine ⟨rfl, fun p => rfl, ?_, ?_⟩
  · intro p ps hps
    match ps with
    | q :: qs => exact intercalate_cons_cons "\n\n" p q qs
  · intro p1 p2
    exact intercalate_cons_cons "\n\n" p1 p2 []

/-- Witness for C4: a concrete 2-page instance of the cons case. -/
theorem pdf_blank_line_join_witness :
    extractPdfText ["A", "B"] = "A" ++ "\n\n" ++ extractPdfText ["B"] :=
  pdf_blank_line_join.2.2.1 "A" ["B"] (by decide)

/-- Claim C5: PDF processing of pages of which some fail to extract
never aborts: it returns the blank-line join of exactly the
successfully extracted pages, in page order, and records a warning
index for exactly the failing pages. -/
theorem pdf_failed_pages_skipped (pages : List (Option String)) :
    (processPdfPages pages).1 = String.intercalate "\n\n" (pages.filterMap id) ∧
    (processPdfPages pages).2 =
      (List.range pages.length).filter (fun j => (pages.getD j (some "")).isNone) := by
  constructor
  · show String.intercalate "\n\n" (collectPages 0 pages).1 = _
    rw [collectPages_fst]
  · show (collectPages 0 pages).2 = _
    rw [collectPages_snd]
    simp

/-- Claim C9: a fetch that finds zero matching items (absent
`'messages'` key) returns the empty document sequence and never fails;
when messages are present the documents come back in source-natural
order — the `i`-th document is built from the `i`-th listed message. -/
theorem fetch_empty_and_order (build : String → Document) :
    fetchDocuments build none = [] ∧
    ∀ (msgs : List String) (i : Nat),
      (fetchDocuments build (some msgs))[i]? = (msgs[i]?).map build := by
  refine ⟨rfl, ?_⟩
  intro msgs i
  simp [fetchDocuments, getMessages]

/-- Claim C10: `get_parts` returns exactly the payloads of the tree
whose `filename` is truthy, traversed depth-first with each container's
nested parts listed before the container itself; a payload with no
parts and no filename yields the empty list. -/
theorem get_parts_characterization :
    (∀ p : Payload, getParts p = (allNodes p).filter (fun q => q.filename != "")) ∧
    getParts (Payload.mk "" []) = [] :=
  ⟨getParts_filter, by simp [getParts, getPartsList]⟩

/-- Concatenating the words produced by `splitWordsAux` restores the
pending accumulator followed by the rest of the text. -/
theorem splitWordsAux_join : ∀ (cs acc : List Char),
    (splitWordsAux acc cs).flatten = acc.reverse ++ cs
  | [], acc => by
    cases acc with
    | nil => simp [splitWordsAux]
    | cons a as => simp [splitWordsAux]
  | c :: cs, acc => by
    by_cases hc : c = ' '
    · simp only [splitWordsAux, hc, if_true, List.flatten_cons,
        splitWordsAux_join cs []]
      simp
    · simp only [splitWordsAux, hc, if_false, splitWordsAux_join cs (c :: acc)]
      simp

/-- Concatenating the word split restores the text exactly. -/
theorem splitWords_join (text : List Char) : (splitWords text).flatten = text := by
  simpa using splitWordsAux_join text []

/-- Concatenating the slices of a hard cut restores the word. -/
theorem hardCut_join (M : Nat) : ∀ l : List Char, (hardCut M l).flatten = l
  | [] => by rw [hardCut]; rfl
  | c :: cs => by
    rw [hardCut, List.flatten_cons, hardCut_join M ((c :: cs).drop (max M 1))]
    exact List.take_append_drop _ _
termination_by l => l.length
decreasing_by
  simp only [List.length_drop, List.length_cons]
  have := Nat.le_max_right M 1
  omega

/-- Every slice of a hard cut has at most `max M 1` characters. -/
theorem hardCut_length (M : Nat) : ∀ l : List Char,
    ∀ ch ∈ hardCut M l, ch.length ≤ max M 1
  | [] => by rw [hardCut]; intro ch hch; cases hch
  | c :: cs => by
    rw [hardCut]
    intro ch hch
    rcases List.mem_cons.mp hch with h | h
    · subst h; exact List.length_take_le _ _
    · exact hardCut_length M ((c :: cs).drop (max M 1)) ch h
termination_by l => l.length
decreasing_by
  simp only [List.length_drop, List.length_cons]
  have := Nat.le_max_right M 1
  omega

/-- Concatenating the chunks of the greedy accumulation restores the
pending accumulator followed by the remaining words. -/
theorem chunkWords_join (M : Nat) : ∀ (ws : List (List Char)) (acc : List Char),
    (chunkWords M ws acc).flatten = acc ++ ws.flatten
  | [], acc => by
    cases acc with
    | nil => simp [chunkWords]
    | cons a as => simp [chunkWords]
  | w :: ws, acc => by
    rw [chunkWords]
    by_cases h1 : acc.length + w.length ≤ M
    · rw [if_pos h1, chunkWords_join M ws (acc ++ w), List.flatten_cons,
        List.append_assoc]
    · rw [if_neg h1]
      by_cases h2 : acc.isEmpty
      · have hacc : acc = [] := List.isEmpty_iff.mp h2
        rw [if_pos h2, List.flatten_append, hardCut_join,
          chunkWords_join M ws [], List.flatten_cons, hacc]
        simp
      · rw [if_neg h2]
        by_cases h3 : w.length ≤ M
        · rw [if_pos h3, List.flatten_cons, chunkWords_join M ws w,
            List.flatten_cons]
        · rw [if_neg h3, List.flatten_cons, List.flatten_append, hardCut_join,
            chunkWords_join M ws [], List.flatten_cons]
          simp

/-- Every chunk of the greedy accumulation stays within the limit,
provided `M > 0` and the pending accumulator already does. -/
theorem chunkWords_le (M : Nat) (hM : 0 < M) :
    ∀ (ws : List (List Char)) (acc : List Char), acc.length ≤ M →
      ∀ ch ∈ chunkWords M ws acc, ch.length ≤ M
  | [], acc => by
    intro hacc ch hch
    cases acc with
    | nil => simp [chunkWords] at hch
    | cons a as =>
      simp only [chunkWords, List.isEmpty_cons, Bool.false_eq_true, if_false,
        List.mem_singleton] at hch
      exact hch ▸ hacc
  | w :: ws, acc => by
    intro hacc ch hch
    have hmax : max M 1 = M := Nat.max_eq_left hM
    by_cases h1 : acc.length + w.length ≤ M
    · rw [chunkWords, if_pos h1] at hch
      exact chunkWords_le M hM ws (acc ++ w) (by simpa using h1) ch hch
    · by_cases h2 : acc.isEmpty
      · rw [chunkWords, if_neg h1, if_pos h2] at hch
        rcases List.mem_append.mp hch with h | h
        · exact hmax ▸ hardCut_length M w ch h
        · exact chunkWords_le M hM ws [] (by simp) ch h
      · rw [chunkWords, if_neg h1, if_neg h2] at hch
        by_cases h3 : w.length ≤ M
        · rw [if_pos h3] at hch
          rcases List.mem_cons.mp hch with h | h
          · exact h ▸ hacc
          · exact chunkWords_le M hM ws w h3 ch h
        · rw [if_neg h3] at hch
          rcases List.mem_cons.mp hch with h | h
          · exact h ▸ hacc
          · rcases List.mem_append.mp h with h' | h'
            · exact hmax ▸ hardCut_length M w ch h'
            · exact chunkWords_le M hM ws [] (by simp) ch h'

/-- Claim C3: for every text and every positive chunk limit `M`,
concatenating the chunks in order restores the text exactly (the
modelled chunker performs no whitespace normalization, so the
reconstruction is exact), and every chunk has at most `M`
characters. -/
theorem chunker_reconstruction (text : List Char) (M : Nat) (hM : 0 < M) :
    (chunkText M text).flatten = text ∧
    ∀ ch ∈ chunkText M text, ch.length ≤ M := by
  constructor
  · rw [chunkText, chunkWords_join]
    simpa using splitWords_join text
  · intro ch hch
    exact chunkWords_le M hM (splitWords text) [] (by simp) ch hch

/-- Witness for C3: the text `"ab cd"` chunked at limit 4. -/
theorem chunker_reconstruction_witness :
    (chunkText 4 ['a', 'b', ' ', 'c', 'd']).flatten = ['a', 'b', ' ', 'c', 'd'] ∧
    ∀ ch ∈ chunkText 4 ['a', 'b', ' ', 'c', 'd'], ch.length ≤ 4 :=
  chunker_reconstruction ['a', 'b', ' ', 'c', 'd'] 4 (by decide)

/-- Witness for the amended C2: a document with `extracted_text` set,
checked against one non-supporting and one supporting processor. -/
theorem extracted_text_amended_witness :
    (Document.mk "g" "t" "c" "text/plain" none 0 [] (some "old")).extracted_text
        = some "old" ∧
    ((Document.mk "g" "t" "c" "text/plain" none 0 [] (some "old")).process_with
        (Processor.mk (fun _ => false) (fun _ => "new"))).2.extracted_text
      = some "old" := by
  refine ⟨rfl, ?_⟩
  exact (extracted_text_amended
    (Document.mk "g" "t" "c" "text/plain" none 0 [] (some "old"))
    (Processor.mk (fun _ => false) (fun _ => "new")) "old" rfl).1 rfl

/-- Claim C6: with a voice rotation list of length `K ≥ 1`, voice
assignment is deterministic and cyclic: the assignment has exactly one
entry per turn (no turn's content is lost), turn `i` keeps its own
content, a turn with a missing or unrecognized explicit label receives
the rotation voice at index `i mod K` (which is a member of the
configured voice list), and a turn with a valid explicit label keeps
that label. -/
theorem voice_assignment (voices : List String) (turns : List Turn)
    (i : Nat) (t : Turn) (hK : 0 < voices.length) (ht : turns[i]? = some t) :
    (assignVoices voices turns).length = turns.length ∧
    (assignVoices voices turns)[i]? = some (assignVoice voices i t, t) ∧
    voices.getD (i % voices.length) "" ∈ voices ∧
    (t.label = none → assignVoice voices i t = voices.getD (i % voices.length) "") ∧
    (∀ l, t.label = some l → voices.contains l = false →
      assignVoice voices i t = voices.getD (i % voices.length) "") ∧
    (∀ l, t.label = some l → voices.contains l = true →
      assignVoice voices i t = l) := by
  refine ⟨by simp [assignVoices], ?_, ?_, ?_, ?_, ?_⟩
  · simp [assignVoices, List.getElem?_enum, ht]
  · have hlt : i % voices.length < voices.length := Nat.mod_lt i hK
    rw [List.getD_eq_getElem voices "" hlt]
    exact List.getElem_mem hlt
  · intro hl; simp [assignVoice, hl]
  · intro l hl hcon
    have hnm : l ∉ voices := by simpa using hcon
    simp [assignVoice, hl, hcon]
    intro hmem
    exact absurd hmem hnm
  · intro l hl hcon
    have hm : l ∈ voices := by simpa using hcon
    simp [assignVoice, hl, hcon]
    intro hnm
    exact absurd hm hnm

/-- Witness for C6: the configured voice list of `config/default.yaml`
with a turn carrying the unrecognized label `"bob"` at index 1. -/
theorem voice_assignment_witness :
    (assignVoices ["alloy", "echo", "fable", "onyx", "nova", "shimmer"]
        [Turn.mk none "hi", Turn.mk (some "bob") "there"]).length = 2 ∧
    (assignVoice ["alloy", "echo", "fable", "onyx", "nova", "shimmer"] 1
        (Turn.mk (some "bob") "there")
      = ["alloy", "echo", "fable", "onyx", "nova", "shimmer"].getD (1 % 6) "") := by
  have h := voice_assignment ["alloy", "echo", "fable", "onyx", "nova", "shimmer"]
    [Turn.mk none "hi", Turn.mk (some "bob") "there"] 1
    (Turn.mk (some "bob") "there") (by decide) rfl
  exact ⟨h.1, h.2.2.2.2.1 "bob" rfl (by decide)⟩

/-- Claim C7: a synthesis call that fails transiently on attempts 0 and
1 and succeeds on attempt 2 yields a success result after exactly 3
attempts and no more; a Permanent failure on the first attempt aborts
immediately after that single attempt; and each chunk's result depends
only on that chunk's own call function — sibling chunks are
independent. -/
theorem synthesis_retry (call pcall : Nat → SynthOutcome) (maxAttempts : Nat)
    (a : String)
    (h0 : call 0 = SynthOutcome.transientFailure)
    (h1 : call 1 = SynthOutcome.transientFailure)
    (h2 : call 2 = SynthOutcome.success a)
    (hA : 3 ≤ maxAttempts)
    (hp : pcall 0 = SynthOutcome.permanentFailure) :
    synthesizeWithRetry call maxAttempts = SynthResult.ok a 3 ∧
    synthesizeWithRetry pcall maxAttempts = SynthResult.failedPermanent 1 ∧
    ∀ (calls : Nat → Nat → SynthOutcome) (n i : Nat), i < n →
      (synthesizeChunks calls n maxAttempts)[i]?
        = some (synthesizeWithRetry (calls i) maxAttempts) := by
  obtain ⟨k, rfl⟩ : ∃ k, maxAttempts = k + 3 := ⟨maxAttempts - 3, by omega⟩
  refine ⟨?_, ?_, ?_⟩
  · show retryLoop call (k + 3) 0 = SynthResult.ok a 3
    rw [retryLoop]
    simp only [h0]
    rw [retryLoop]
    simp only [h1]
    rw [retryLoop]
    simp only [h2]
  · show retryLoop pcall (k + 3) 0 = SynthResult.failedPermanent 1
    rw [retryLoop]
    simp only [hp]
  · intro calls n i hi
    simp [synthesizeChunks, List.getElem?_range hi]

/-- Witness for C7: a stub that fails transiently twice then succeeds,
a stub that fails permanently at once, and an attempt ceiling of 5. -/
theorem synthesis_retry_witness :
    synthesizeWithRetry
      (fun n => if n < 2 then SynthOutcome.transientFailure
                else SynthOutcome.success "audio") 5
      = SynthResult.ok "audio" 3 ∧
    synthesizeWithRetry (fun _ => SynthOutcome.permanentFailure) 5
      = SynthResult.failedPermanent 1 := by
  have h := synthesis_retry
    (fun n => if n < 2 then SynthOutcome.transientFailure
              else SynthOutcome.success "audio")
    (fun _ => SynthOutcome.permanentFailure) 5 "audio"
    rfl rfl rfl (by decide) rfl
  exact ⟨h.1, h.2.1⟩

end AudioSummaries
